import Mathlib

/-
Shallow embedding of the human-chess repository (Python sources under src/)
in Lean 4, used to settle the frozen specification claims.

Conventions used throughout this development:

* Python strings are modelled as lists of characters (`Str`).  The
  single-space splitting and joining performed by src/api.py, namely
  fen.split and the space join, are modelled by the executable functions
  `pySplit` and `pyJoin` below, which follow Python semantics exactly
  (every occurrence of the separator splits, empty pieces are kept).
* The Stockfish handle of src/process_data.py is the oracle structure
  `ProcessData.Engine`.  A raised Python exception is `Except.error ()`,
  a returned value is `Except.ok`.  Of each entry of the list returned by
  the multipv analyse call the code reads exactly two parts, the first
  principal-variation move and the relative score converted with a mate
  score, so an entry is modelled by those two values (`InfoEntry`).  The
  single analyse call of the fallback path is modelled by its outcome:
  the call raises, or it returns but the score extraction inside the
  inner try raises, or a score is produced (`Except Unit (Option Int)`).
* A python-chess board is a stack of played moves over a base position:
  `push` adds a move, `pop` removes the most recently added move.  The
  stack is kept most-recent-first, so that `pop (push b m) = b` holds by
  definitional unfolding, which is exactly the apply/undo symmetry of the
  library.  The side to move alternates from the base position's.
* The loaded Keras model of src/api.py is an oracle `Api.Model` mapping a
  FEN string and an Elo to its predicted probability; a loaded model
  evaluates totally.  Probabilities are carried as rationals: machine
  floats only transport opaque model outputs here and no floating-point
  arithmetic identity is relied upon by any claim.
* The python-chess library behind src/api.py is the oracle `Api.Chess`:
  parsing a FEN either fails (the constructor raises) or yields the
  position data the endpoint reads from the board object - its canonical
  FEN, its side to move, and the materialised legal-move list.  Of each
  legal move the code reads the source and target square names, the UCI
  string, the SAN string relative to the parent position, and the FEN of
  the child position reached by pushing it.
* Globals of the Python modules (the worker engine, the loaded model)
  become explicit parameters of the translated functions.
-/

deriving instance DecidableEq for Except

/-- Python strings, modelled as lists of characters. -/
abbrev Str := List Char

/-- Python split on a single space: every space splits, empty pieces kept. -/
def pySplit : Str → List Str
  | [] => [[]]
  | c :: rest =>
      match pySplit rest with
      | [] => [[c]]
      | g :: gs => if c = ' ' then [] :: g :: gs else (c :: g) :: gs

/-- Python join with a single space between the pieces. -/
def pyJoin : List Str → Str
  | [] => []
  | [g] => g
  | g :: gs => g ++ ' ' :: pyJoin gs

namespace ProcessData

/-- A chess move (opaque identifier); src/process_data.py only ever
compares moves for equality. -/
abbrev Move := Nat

/-- A python-chess board: the base position's side to move plus the stack
of played moves, most recent first.  `game.board()` starts with an empty
stack. -/
structure Board where
  turn0 : Bool
  stack : List Move
deriving DecidableEq

/-- board.push(move). -/
def push (b : Board) (m : Move) : Board :=
  { turn0 := b.turn0, stack := m :: b.stack }

/-- board.pop(): undo the most recent push. -/
def pop (b : Board) : Board :=
  { turn0 := b.turn0, stack := b.stack.tail }

/-- board.turn: the base side to move, flipped once per played move. -/
def turn (b : Board) : Bool :=
  if b.stack.length % 2 = 0 then b.turn0 else !b.turn0

/-- One entry of the list returned by the multipv analyse call, reduced to
the two components read by the code: the move at the head of the principal
variation and the mover-relative score converted with mate_score 10000. -/
structure InfoEntry where
  pvHead : Move
  score : Int
deriving DecidableEq

/-- The worker's Stockfish handle.  `analyseMulti` is the depth-10
multipv-5 analyse call of analyze_position_worker; `analyseSingle` is the
depth-5 analyse call of the fallback path of process_single_game together
with the score extraction performed on its result: `Except.error ()` means
the analyse call raised, `Except.ok none` means it returned but the score
extraction inside the inner try raised, `Except.ok (some s)` means the
extracted relative score is `s`. -/
structure Engine where
  analyseMulti : Board → Except Unit (List InfoEntry)
  analyseSingle : Board → Except Unit (Option Int)

/-- analyze_position_worker: with no engine it returns the None triple;
otherwise it runs the multipv analyse (whose exception propagates to the
caller), returns the None triple on an empty result, and else the head
entry's move and score together with the whole list. -/
def analyze_position_worker (eng : Option Engine) (b : Board) :
    Except Unit (Option (Move × Int × List InfoEntry)) :=
  match eng with
  | none => Except.ok none
  | some e =>
      match e.analyseMulti b with
      | Except.error u => Except.error u
      | Except.ok [] => Except.ok none
      | Except.ok (i0 :: rest) => Except.ok (some (i0.pvHead, i0.score, i0 :: rest))

/-- One row appended to `data` by process_single_game. -/
structure Record where
  fen : Board
  elo : Int
  best_score : Int
  human_score : Int
  score_diff : Int
  is_blunder : Int
  complexity : Int
deriving DecidableEq

/-- The dictionary literal of process_single_game, lines 104-112: the fen
of the (restored) board, the mover's Elo, both scores, their difference,
the threshold label and the constant complexity field. -/
def mkRecord (fenB : Board) (elo best human : Int) : Record :=
  { fen := fenB
    elo := elo
    best_score := best
    human_score := human
    score_diff := best - human
    is_blunder := if 100 < best - human then 1 else 0
    complexity := 0 }

/-- white_elo if it is White's move, black_elo otherwise (line 74). -/
def currentElo (we be : Int) (b : Board) : Int :=
  if turn b then we else be

/-- One iteration of the move loop of process_single_game (lines 73-118):
given the board before the ply it returns the record appended for this ply
(if any) and the board left for the next iteration.  The outer try/except
swallows any exception raised inside the iteration; the trailing
`board.push(move)` of line 118 runs after the try block (the early
`continue` path of lines 82-83 performs its own push instead). -/
def processPly (eng : Option Engine) (we be : Int) (board : Board) (m : Move) :
    Option Record × Board :=
  match eng with
  | none =>
      -- analyze_position_worker returns the None triple: push and continue.
      (none, push board m)
  | some e =>
      match e.analyseMulti board with
      | Except.error _ =>
          -- the analyse call raised: outer except, then the line-118 push.
          (none, push board m)
      | Except.ok [] =>
          -- not info: best_move is None, push and continue.
          (none, push board m)
      | Except.ok (i0 :: rest) =>
          let ce := currentElo we be board
          let best_score := i0.score
          match (i0 :: rest).find? (fun pv => pv.pvHead == m) with
          | some pv =>
              -- the played move is among the candidates: its score is used.
              (some (mkRecord board ce best_score pv.score), push board m)
          | none =>
              -- fallback: push the played move and analyse the child.
              let b1 := push board m
              match e.analyseSingle b1 with
              | Except.error _ =>
                  -- the analyse call raised: board.pop() is skipped, the
                  -- outer except swallows, and line 118 pushes again.
                  (none, push b1 m)
              | Except.ok none =>
                  -- score extraction raised: the inner except substitutes
                  -- the sentinel, then pop and the line-118 push.
                  let b2 := pop b1
                  (some (mkRecord b2 ce best_score (-9999)), push b2 m)
              | Except.ok (some s) =>
                  -- negate the child evaluation, then pop and push.
                  let b2 := pop b1
                  (some (mkRecord b2 ce best_score (-s)), push b2 m)

/-- The whole move loop: thread the board through the iterations and
collect the appended records in order. -/
def processMoves (eng : Option Engine) (we be : Int) :
    List Move → Board → List Record × Board
  | [], b => ([], b)
  | m :: ms, b =>
      let r := processPly eng we be b m
      let rest := processMoves eng we be ms r.2
      (r.1.toList ++ rest.1, rest.2)

/-- A parsed PGN game as read by process_single_game: the two rating
headers (`none` when the header is absent, in which case headers.get
supplies the question-mark default), the base position's side to move and
the mainline move list. -/
structure Game where
  whiteEloStr : Option Str
  blackEloStr : Option Str
  turn0 : Bool
  moves : List Move

/-- The question-mark default of headers.get. -/
def qmark : Str := [ '?' ]

/-- game.board(): the base position with an empty move stack. -/
def initialBoard (g : Game) : Board :=
  { turn0 := g.turn0, stack := [] }

/-- process_single_game.  `pyInt` is the Python int conversion on strings,
`none` meaning it raises ValueError; `eng` is the worker's global engine.
Missing headers default to the question mark; a question-mark header or a
failing conversion returns the empty list before any engine use. -/
def process_single_game (pyInt : Str → Option Int) (eng : Option Engine)
    (g : Game) : List Record :=
  let white_elo := g.whiteEloStr.getD qmark
  let black_elo := g.blackEloStr.getD qmark
  if white_elo = qmark ∨ black_elo = qmark then []
  else
    match pyInt white_elo, pyInt black_elo with
    | some we, some be => (processMoves eng we be g.moves (initialBoard g)).1
    | _, _ => []

/-- A rating header that is absent, or present but rejected by the int
conversion. -/
def badHeader (pyInt : Str → Option Int) (h : Option Str) : Prop :=
  h = none ∨ ∃ s, h = some s ∧ pyInt s = none

end ProcessData

namespace Api

/-- The loaded Keras model behind predict_probability: from the FEN string
handed to fen_to_tensor and the (un-normalised) Elo to the predicted
probability.  A loaded model evaluates totally; the Elo normalisation by
3000 happens inside this opaque composite. -/
abbrev Model := Str → Int → ℚ

/-- One element of list(board.legal_moves), reduced to the components the
endpoint reads: the square names of its source and target, its UCI string,
its SAN string relative to the parent position, and the canonical FEN of
the child position reached by pushing it. -/
structure MoveData where
  fromName : Str
  toName : Str
  uciName : Str
  sanName : Str
  childFen : Str
deriving DecidableEq

/-- What the endpoint reads from a successfully constructed chess.Board:
its canonical FEN (board.fen), its side to move (board.turn, true for
White) and its materialised legal-move list. -/
structure PosData where
  fenS : Str
  turnW : Bool
  legal : List MoveData
deriving DecidableEq

/-- The python-chess library oracle: constructing chess.Board from a FEN
either raises (`none`) or yields the position data. -/
structure Chess where
  parse : Str → Option PosData

/-- The mutable board object of predict_moves: the current position data
plus the undo stack saved by push.  Pushing a move makes the child current
(the code only ever reads the child's FEN before popping, so only the
components saved for undo matter); popping restores the saved parent. -/
structure MBoard where
  curFen : Str
  curTurn : Bool
  curLegal : List MoveData
  stack : List (Str × Bool × List MoveData)
deriving DecidableEq

/-- board.push(move). -/
def mpush (b : MBoard) (m : MoveData) : MBoard :=
  { curFen := m.childFen
    curTurn := !b.curTurn
    curLegal := []
    stack := (b.curFen, b.curTurn, b.curLegal) :: b.stack }

/-- board.pop(). -/
def mpop (b : MBoard) : MBoard :=
  match b.stack with
  | [] => b
  | (f, t, lg) :: rest => { curFen := f, curTurn := t, curLegal := lg, stack := rest }

/-- The distinct surfaced failures of the endpoint, one per raise site:
the 503 of a missing model, the two 400s of validate_request, the two
400s of validate_fen and predict_moves, and the 500 of a failing baseline
computation. -/
inductive ApiError where
  | modelNotLoaded
  | eloOutOfRange
  | fenRequired
  | invalidFen
  | noLegalMoves
  | baselineFailed
deriving DecidableEq

/-- Python `not fen.strip()`: the string is empty or all whitespace. -/
def isBlank (s : Str) : Bool :=
  s.all (fun c => c.isWhitespace)

/-- validate_fen: reject a blank FEN, then hand the string to chess.Board
and turn a constructor exception into the invalid-FEN error. -/
def validate_fen (c : Chess) (fen : Str) : Except ApiError PosData :=
  if isBlank fen then Except.error ApiError.fenRequired
  else
    match c.parse fen with
    | some b => Except.ok b
    | none => Except.error ApiError.invalidFen

/-- validate_request: missing model, then the Elo range, then the FEN.
(The pydantic schema already guarantees both fields are present, so the
None checks of the source cannot fire and are not modelled.) -/
def validate_request (c : Chess) (model : Option Model) (fen : Str) (elo : Int) :
    Except ApiError PosData :=
  if model.isNone then Except.error ApiError.modelNotLoaded
  else if elo ≤ 0 ∨ 3000 < elo then Except.error ApiError.eloOutOfRange
  else validate_fen c fen

/-- The side-to-move field of a FEN is the part at index 1. -/
def wChar : Str := [ 'w' ]

/-- The black side-to-move field. -/
def bChar : Str := [ 'b' ]

/-- flip_fen_turn: split on spaces, require at least two parts, toggle the
part at index 1 between w and b (raising ValueError on anything else) and
join the parts back with spaces. -/
def flip_fen_turn (fen : Str) : Except Unit Str :=
  let parts := pySplit fen
  if parts.length < 2 then Except.error ()
  else
    match parts.get? 1 with
    | some t =>
        if t = wChar then Except.ok (pyJoin (parts.set 1 bChar))
        else if t = bChar then Except.ok (pyJoin (parts.set 1 wChar))
        else Except.error ()
    | none => Except.error ()

/-- The constant string white. -/
def whiteStr : Str := [ 'w', 'h', 'i', 't', 'e' ]

/-- The constant string black. -/
def blackStr : Str := [ 'b', 'l', 'a', 'c', 'k' ]

/-- The white/black rendering of board.turn used by the endpoint. -/
def colorName (w : Bool) : Str :=
  if w then whiteStr else blackStr

/-- The constant predicted_for value of the ranked entries. -/
def oppMoveStr : Str :=
  [ 'o', 'p', 'p', 'o', 'n', 'e', 'n', 't', '_', 't', 'o', '_', 'm', 'o', 'v', 'e' ]

/-- One element of the results list of predict_moves. -/
structure MoveEntry where
  fromName : Str
  toName : Str
  uciName : Str
  sanName : Str
  predictedFor : Str
  sideToMoveAfter : Str
  opponentErrorProbability : ℚ
  opponentErrorDelta : ℚ
deriving DecidableEq

/-- The JSON object returned by a successful predict_moves call. -/
structure MovesResponse where
  fen : Str
  sideToMove : Str
  predictedFor : Str
  elo : Int
  opponentBaselineProbability : ℚ
  moves : List MoveEntry
deriving DecidableEq

/-- The for loop of predict_moves (lines 133-151): for each legal move of
the materialised list, compute the SAN on the current board, push, predict
on the child's FEN, pop, and append the entry; the side_to_move_after
field is rendered from board.turn after the pop. -/
def rankLoop (M : Model) (elo : Int) (baseline : ℚ) :
    List MoveData → MBoard → List MoveEntry × MBoard
  | [], b => ([], b)
  | m :: ms, b =>
      let san := m.sanName
      let b1 := mpush b m
      let prob := M b1.curFen elo
      let b2 := mpop b1
      let entry : MoveEntry :=
        { fromName := m.fromName
          toName := m.toName
          uciName := m.uciName
          sanName := san
          predictedFor := oppMoveStr
          sideToMoveAfter := colorName b2.curTurn
          opponentErrorProbability := prob
          opponentErrorDelta := prob - baseline }
      let r := rankLoop M elo baseline ms b2
      (entry :: r.1, r.2)

/-- The predict_moves endpoint: validate the request, materialise the
legal moves and reject a position without any, compute the flipped-turn
baseline (any exception there surfaces as the 500 baseline failure), rank
every legal move with the loop, and assemble the response. -/
def predict_moves (c : Chess) (model : Option Model) (fen : Str) (elo : Int) :
    Except ApiError MovesResponse :=
  match validate_request c model fen elo with
  | Except.error e => Except.error e
  | Except.ok b0 =>
      match model with
      | none =>
          -- unreachable: validate_request has already rejected a missing model.
          Except.error ApiError.modelNotLoaded
      | some M =>
          let board : MBoard :=
            { curFen := b0.fenS, curTurn := b0.turnW, curLegal := b0.legal, stack := [] }
          let legal_moves := board.curLegal
          if legal_moves = [] then Except.error ApiError.noLegalMoves
          else
            match flip_fen_turn board.curFen with
            | Except.error _ => Except.error ApiError.baselineFailed
            | Except.ok baseline_fen =>
                let baseline := M baseline_fen elo
                let r := rankLoop M elo baseline legal_moves board
                Except.ok
                  { fen := fen
                    sideToMove := colorName board.curTurn
                    predictedFor := oppMoveStr
                    elo := elo
                    opponentBaselineProbability := baseline
                    moves := r.1 }

/-- The guarantee python-chess gives about every board the endpoint can
hold: board.fen() always renders a full FEN whose side-to-move field is w
or b, so flipping it succeeds.  The oracle is required to respect it. -/
def WellFormedChess (c : Chess) : Prop :=
  ∀ s p, c.parse s = some p → ∃ fl, flip_fen_turn p.fenS = Except.ok fl

end Api

/-- The six chess piece kinds of the python-chess constants. -/
inductive PieceType where
  | pawn
  | knight
  | bishop
  | rook
  | queen
  | king
deriving DecidableEq

/-- A placed piece: its kind and its colour (true for White). -/
structure Piece where
  ptype : PieceType
  colorW : Bool
deriving DecidableEq

/-- The piece_map dictionary literal shared by both encoders. -/
def pieceLayerBase : PieceType → Nat
  | PieceType.pawn => 0
  | PieceType.knight => 1
  | PieceType.bishop => 2
  | PieceType.rook => 3
  | PieceType.queen => 4
  | PieceType.king => 5

theorem pieceLayerBase_lt (t : PieceType) : pieceLayerBase t < 6 := by
  cases t <;> decide

/-- The plane index of a piece: the dictionary value, shifted by six for a
black piece. -/
def layerNat (p : Piece) : Nat :=
  pieceLayerBase p.ptype + (if p.colorW then 0 else 6)

theorem layerNat_lt (p : Piece) : layerNat p < 12 := by
  rcases p with ⟨t, c⟩
  cases t <;> cases c <;> decide

/-- The plane index of a piece, bounded. -/
def layerOf (p : Piece) : Fin 12 :=
  ⟨layerNat p, layerNat_lt p⟩

/-- The 8 by 8 by 12 board tensor; the non-zero entries written by the
encoders all equal one, so rationals carry the float values exactly. -/
abbrev Tensor := Fin 8 → Fin 8 → Fin 12 → ℚ

/-- np.zeros. -/
def zeroTensor : Tensor := fun _ _ _ => 0

/-- One numpy cell assignment tensor at rank, file, layer receiving v. -/
def setCell (t : Tensor) (r0 f0 : Fin 8) (l0 : Fin 12) (v : ℚ) : Tensor :=
  fun r f l => if r = r0 ∧ f = f0 ∧ l = l0 then v else t r f l

/-- chess.square_rank: the square index shifted right by three. -/
def squareRank (sq : Fin 64) : Fin 8 :=
  ⟨sq.val / 8, by have h := sq.isLt; omega⟩

/-- chess.square_file: the low three bits of the square index. -/
def squareFile (sq : Fin 64) : Fin 8 :=
  ⟨sq.val % 8, by have h := sq.isLt; omega⟩

/-- The square with a given rank and file. -/
def squareAt (r f : Fin 8) : Fin 64 :=
  ⟨8 * r.val + f.val, by have hr := r.isLt; have hf := f.isLt; omega⟩

/-- The body of the encoder loop: skip an empty square, otherwise set the
cell at the square's rank and file in the piece's plane to one. -/
def fillStep (pm : Fin 64 → Option Piece) (t : Tensor) (sq : Fin 64) : Tensor :=
  match pm sq with
  | none => t
  | some p => setCell t (squareRank sq) (squareFile sq) (layerOf p) 1

/-- Whether the piece map places on the square a piece whose plane is the
given layer. -/
def cellHot (pm : Fin 64 → Option Piece) (sq : Fin 64) (l : Fin 12) : Bool :=
  match pm sq with
  | some p => layerOf p == l
  | none => false

namespace TrainModel

/-- fen_to_tensor of src/train_model.py: a position (given by its piece
map, the dictionary board.piece_map() whose keys are the occupied
squares) is folded into the zero tensor by writing a one at the rank,
file and plane of every placed piece. -/
def fen_to_tensor (pm : Fin 64 → Option Piece) : Tensor :=
  (List.finRange 64).foldl (fillStep pm) zeroTensor

end TrainModel

namespace Api

/-- fen_to_tensor of src/api.py, textually identical to the training-side
encoder. -/
def fen_to_tensor (pm : Fin 64 → Option Piece) : Tensor :=
  (List.finRange 64).foldl (fillStep pm) zeroTensor

end Api

/-
Concrete instances used by witnesses and counterexamples.
-/

/-- An engine whose five candidates miss the played move 5 and whose
fallback analyse call raises. -/
def E1c : ProcessData.Engine :=
  { analyseMulti := fun _ => Except.ok [⟨7, 30⟩]
    analyseSingle := fun _ => Except.error () }

/-- An engine whose five candidates miss the played move 5 and whose
fallback analyse call yields the score 42. -/
def E1w : ProcessData.Engine :=
  { analyseMulti := fun _ => Except.ok [⟨7, 30⟩]
    analyseSingle := fun _ => Except.ok (some 42) }

/-- A base board with White to move and nothing played. -/
def B1 : ProcessData.Board := { turn0 := true, stack := [] }

/-- An engine whose candidate list contains the played move 5. -/
def E2 : ProcessData.Engine :=
  { analyseMulti := fun _ => Except.ok [⟨5, 20⟩]
    analyseSingle := fun _ => Except.ok (some 0) }

/-- A digit-one rating header string. -/
def S2 : Str := [ '1' ]

/-- A one-ply game with both rating headers present. -/
def G2 : ProcessData.Game :=
  { whiteEloStr := some S2, blackEloStr := some S2, turn0 := true, moves := [5] }

/-- An int conversion accepting exactly the digit-one header. -/
def pyInt2 : Str → Option Int :=
  fun s => if s = S2 then some 1500 else none

/-- The record process_single_game emits for the game G2 with engine E2. -/
def R2 : ProcessData.Record :=
  ProcessData.mkRecord { turn0 := true, stack := [] } 1500 20 20

/-- An engine triggering the fallback path with a raising analyse call. -/
def E4 : ProcessData.Engine :=
  { analyseMulti := fun _ => Except.ok [⟨7, 30⟩]
    analyseSingle := fun _ => Except.error () }

/-- A base board with White to move and nothing played. -/
def B4 : ProcessData.Board := { turn0 := true, stack := [] }

/-- A request FEN accepted by the oracle c3. -/
def F3 : Str := [ 'f', '3' ]

/-- The child FEN of the first legal move of P3. -/
def F3a : Str := [ 'x' ]

/-- The child FEN of the second legal move of P3. -/
def F3b : Str := [ 'y' ]

/-- A position with two legal moves. -/
def P3 : Api.PosData :=
  { fenS := [ 'k', ' ', 'w' ]
    turnW := true
    legal :=
      [ { fromName := [ 'a' ], toName := [ 'b' ], uciName := [ 'a', 'b' ],
          sanName := [ 'A' ], childFen := F3a },
        { fromName := [ 'c' ], toName := [ 'd' ], uciName := [ 'c', 'd' ],
          sanName := [ 'C' ], childFen := F3b } ] }

/-- A chess oracle parsing exactly F3 to the position P3. -/
def c3 : Api.Chess :=
  { parse := fun s => if s = F3 then some P3 else none }

/-- A model scoring the first child 0 and everything else 1, so the
enumeration order of P3 is strictly ascending in model output. -/
def M3 : Api.Model :=
  fun f _ => if f = F3a then 0 else 1

/-- A request FEN accepted by the oracle c5. -/
def F5 : Str := [ 'f', '5' ]

/-- A position with no legal moves. -/
def P5 : Api.PosData :=
  { fenS := [ 'k', ' ', 'w' ], turnW := true, legal := [] }

/-- A chess oracle parsing exactly F5 to the stalemated position P5. -/
def c5 : Api.Chess :=
  { parse := fun s => if s = F5 then some P5 else none }

/-- A constant model. -/
def M5 : Api.Model := fun _ _ => 0

/-- A serialized position with a white side-to-move field at index 1. -/
def F6 : Str := [ 'r', ' ', 'w', ' ', '1' ]

/-- The same position with the side-to-move field toggled. -/
def FJ6 : Str := [ 'r', ' ', 'b', ' ', '1' ]

/-- A request FEN accepted by the oracle c9. -/
def F9 : Str := [ 'f', '9' ]

/-- The single legal move of P9. -/
def MV9 : Api.MoveData :=
  { fromName := [ 'e', '2' ], toName := [ 'e', '4' ]
    uciName := [ 'e', '2', 'e', '4' ], sanName := [ 'e', '4' ]
    childFen := [ 'c' ] }

/-- A position with exactly one legal move, White to move. -/
def P9 : Api.PosData :=
  { fenS := [ 'k', ' ', 'w' ], turnW := true, legal := [MV9] }

/-- A chess oracle parsing exactly F9 to the position P9. -/
def c9 : Api.Chess :=
  { parse := fun s => if s = F9 then some P9 else none }

/-- A constant model. -/
def M9 : Api.Model := fun _ _ => 0

/-- The flipped-turn baseline FEN of P9. -/
def FL9 : Str := [ 'k', ' ', 'b' ]

/-- The single ranked entry of the response for F9 with model M9. -/
def EN9 : Api.MoveEntry :=
  { fromName := MV9.fromName, toName := MV9.toName
    uciName := MV9.uciName, sanName := MV9.sanName
    predictedFor := Api.oppMoveStr
    sideToMoveAfter := Api.colorName true
    opponentErrorProbability := 0
    opponentErrorDelta := (0 : ℚ) - 0 }

/-- The response predict_moves assembles for F9 with model M9. -/
def R9 : Api.MovesResponse :=
  { fen := F9
    sideToMove := Api.colorName true
    predictedFor := Api.oppMoveStr
    elo := 1500
    opponentBaselineProbability := 0
    moves := [EN9] }

/-- A game whose white rating header is absent. -/
def G10 : ProcessData.Game :=
  { whiteEloStr := none, blackEloStr := some [ '9' ], turn0 := true, moves := [1] }

/-- An int conversion rejecting every string. -/
def pyInt10 : Str → Option Int := fun _ => none

/-- An arbitrary engine. -/
def E10 : ProcessData.Engine :=
  { analyseMulti := fun _ => Except.ok []
    analyseSingle := fun _ => Except.error () }

/-
Lemmas about the Python string split and join.
-/

theorem pySplit_ne_nil (s : Str) : pySplit s ≠ [] := by
  cases s with
  | nil => simp [pySplit]
  | cons c rest =>
      simp only [pySplit]
      rcases h : pySplit rest with _ | ⟨g, gs⟩
      · simp
      · by_cases hc : c = ' ' <;> simp [hc]

theorem pyJoin_pySplit (s : Str) : pyJoin (pySplit s) = s := by
  induction s with
  | nil => simp [pySplit, pyJoin]
  | cons c rest ih =>
      simp only [pySplit]
      rcases h : pySplit rest with _ | ⟨g, gs⟩
      · exact absurd h (pySplit_ne_nil rest)
      · rw [h] at ih
        by_cases hc : c = ' '
        · subst hc
          simp [pyJoin, ih]
        · simp only [if_neg hc]
          cases gs with
          | nil =>
              simp only [pyJoin] at ih ⊢
              rw [ih]
          | cons g2 gs2 =>
              simp only [pyJoin] at ih ⊢
              rw [List.cons_append, ih]

theorem pySplit_no_space (s : Str) : ∀ g ∈ pySplit s, ' ' ∉ g := by
  induction s with
  | nil =>
      intro g hg
      simp [pySplit] at hg
      simp [hg]
  | cons c rest ih =>
      intro g hg
      simp only [pySplit] at hg
      rcases h : pySplit rest with _ | ⟨g0, gs⟩
      · exact absurd h (pySplit_ne_nil rest)
      · rw [h] at hg
        dsimp only at hg
        by_cases hc : c = ' '
        · rw [if_pos hc] at hg
          rcases List.mem_cons.mp hg with hge | hge
          · simp [hge]
          · exact ih g (h ▸ hge)
        · rw [if_neg hc] at hg
          rcases List.mem_cons.mp hg with hge | hge
          · subst hge
            intro hsp
            rcases List.mem_cons.mp hsp with he | he
            · exact hc he.symm
            · exact ih g0 (h ▸ List.mem_cons_self g0 gs) he
          · exact ih g (h ▸ List.mem_cons_of_mem g0 hge)

theorem pySplit_of_no_space (g : Str) (h : ' ' ∉ g) : pySplit g = [g] := by
  induction g with
  | nil => simp [pySplit]
  | cons c rest ih =>
      have hc : c ≠ ' ' := fun he => h (he ▸ List.mem_cons_self c rest)
      have hr : ' ' ∉ rest := fun he => h (List.mem_cons_of_mem c he)
      simp only [pySplit, ih hr]
      rw [if_neg hc]

theorem pySplit_append_space (g : Str) (h : ' ' ∉ g) (t : Str) :
    pySplit (g ++ ' ' :: t) = g :: pySplit t := by
  induction g with
  | nil =>
      simp only [List.nil_append, pySplit]
      rcases ht : pySplit t with _ | ⟨g0, gs⟩
      · exact absurd ht (pySplit_ne_nil t)
      · simp
  | cons c rest ih =>
      have hc : c ≠ ' ' := fun he => h (he ▸ List.mem_cons_self c rest)
      have hr : ' ' ∉ rest := fun he => h (List.mem_cons_of_mem c he)
      simp only [List.cons_append, pySplit, List.append_eq, ih hr]
      rw [if_neg hc]

theorem pySplit_pyJoin (l : List Str) (hne : l ≠ [])
    (hsp : ∀ g ∈ l, ' ' ∉ g) : pySplit (pyJoin l) = l := by
  induction l with
  | nil => exact absurd rfl hne
  | cons g rest ih =>
      cases rest with
      | nil =>
          simp only [pyJoin]
          exact pySplit_of_no_space g (hsp g (List.mem_cons_self g []))
      | cons g2 gs =>
          simp only [pyJoin]
          rw [pySplit_append_space g (hsp g (List.mem_cons_self g (g2 :: gs)))]
          rw [ih (by simp) (fun x hx => hsp x (List.mem_cons_of_mem g hx))]

theorem set_of_get? {α : Type} : ∀ (l : List α) (n : Nat) (a : α),
    l.get? n = some a → l.set n a = l := by
  intro l
  induction l with
  | nil => intro n a h; simp at h
  | cons x xs ih =>
      intro n a h
      cases n with
      | zero => simp at h; simp [h]
      | succ k =>
          simp only [List.get?_cons_succ] at h
          simp [ih k a h]

theorem get?_set_self {α : Type} : ∀ (l : List α) (n : Nat) (a b : α),
    l.get? n = some b → (l.set n a).get? n = some a := by
  intro l
  induction l with
  | nil => intro n a b h; simp at h
  | cons x xs ih =>
      intro n a b h
      cases n with
      | zero => simp
      | succ k =>
          simp only [List.get?_cons_succ] at h ⊢
          simp only [List.set_cons_succ]
          exact ih k a b h

/-
Lemmas about flip_fen_turn.
-/

theorem flip_fen_turn_ok (fen t : Str)
    (ht : (pySplit fen).get? 1 = some t) (hv : t = Api.wChar ∨ t = Api.bChar) :
    Api.flip_fen_turn fen =
      Except.ok (pyJoin ((pySplit fen).set 1
        (if t = Api.wChar then Api.bChar else Api.wChar))) := by
  have hlt : 1 < (pySplit fen).length := by
    rcases List.get?_eq_some.mp ht with ⟨hl, _⟩
    exact hl
  simp only [Api.flip_fen_turn]
  rw [if_neg (by omega), ht]
  dsimp only
  rcases hv with rfl | rfl
  · simp [Api.wChar, Api.bChar]
  · simp [Api.wChar, Api.bChar]

theorem pySplit_flip (fen : Str) (v : Str) (hv : ' ' ∉ v)
    (hlt : 1 < (pySplit fen).length) :
    pySplit (pyJoin ((pySplit fen).set 1 v)) = (pySplit fen).set 1 v := by
  apply pySplit_pyJoin
  · intro hnil
    have hlen := congrArg List.length hnil
    rw [List.length_set] at hlen
    simp only [List.length_nil] at hlen
    omega
  · intro g hg
    rcases List.mem_or_eq_of_mem_set hg with hmem | hneq
    · exact pySplit_no_space fen g hmem
    · rw [hneq]
      exact hv

/-- C6: for every serialized position whose side-to-move field (the part
at index 1 of the space-split) is w or b, flip_fen_turn succeeds, the
result's parts differ from the original's only at index 1 (where the
field is toggled), and flipping the result again returns the original
string unchanged; if the field is absent (fewer than two parts) or holds
anything else, flip_fen_turn raises. -/
theorem C6_flip_turn_involution (fen : Str) :
    (∀ t, (pySplit fen).get? 1 = some t → t = Api.wChar ∨ t = Api.bChar →
      ∃ fen2, Api.flip_fen_turn fen = Except.ok fen2 ∧
        pySplit fen2 =
          (pySplit fen).set 1 (if t = Api.wChar then Api.bChar else Api.wChar) ∧
        Api.flip_fen_turn fen2 = Except.ok fen) ∧
    ((pySplit fen).length < 2 → Api.flip_fen_turn fen = Except.error ()) ∧
    (∀ t, (pySplit fen).get? 1 = some t → t ≠ Api.wChar → t ≠ Api.bChar →
      Api.flip_fen_turn fen = Except.error ()) := by
  refine ⟨?_, ?_, ?_⟩
  · intro t ht hv
    have hlt : 1 < (pySplit fen).length := by
      rcases List.get?_eq_some.mp ht with ⟨hl, _⟩
      exact hl
    rcases hv with rfl | rfl
    · have hok := flip_fen_turn_ok fen Api.wChar ht (Or.inl rfl)
      rw [if_pos rfl] at hok
      have h2 := pySplit_flip fen Api.bChar (by decide) hlt
      refine ⟨_, hok, by rw [h2, if_pos rfl], ?_⟩
      have hget :
          (pySplit (pyJoin ((pySplit fen).set 1 Api.bChar))).get? 1 = some Api.bChar := by
        rw [h2]
        exact get?_set_self _ 1 _ _ ht
      have hok2 := flip_fen_turn_ok _ Api.bChar hget (Or.inr rfl)
      rw [if_neg (by decide), h2, List.set_set, set_of_get? _ 1 _ ht,
        pyJoin_pySplit] at hok2
      exact hok2
    · have hok := flip_fen_turn_ok fen Api.bChar ht (Or.inr rfl)
      rw [if_neg (by decide)] at hok
      have h2 := pySplit_flip fen Api.wChar (by decide) hlt
      refine ⟨_, hok, by rw [h2, if_neg (by decide)], ?_⟩
      have hget :
          (pySplit (pyJoin ((pySplit fen).set 1 Api.wChar))).get? 1 = some Api.wChar := by
        rw [h2]
        exact get?_set_self _ 1 _ _ ht
      have hok2 := flip_fen_turn_ok _ Api.wChar hget (Or.inl rfl)
      rw [if_pos rfl, h2, List.set_set, set_of_get? _ 1 _ ht,
        pyJoin_pySplit] at hok2
      exact hok2
  · intro hlt
    simp only [Api.flip_fen_turn]
    rw [if_pos hlt]
  · intro t ht hw hb
    have hlt : 1 < (pySplit fen).length := by
      rcases List.get?_eq_some.mp ht with ⟨hl, _⟩
      exact hl
    simp only [Api.flip_fen_turn]
    rw [if_neg (by omega), ht]
    dsimp only
    rw [if_neg hw, if_neg hb]

/-- Witness for C6 at a concrete five-part string with a white field. -/
theorem C6_flip_turn_involution_witness :
    Api.flip_fen_turn F6 = Except.ok FJ6 ∧ Api.flip_fen_turn FJ6 = Except.ok F6 := by
  obtain ⟨fen2, h1, hset, h2⟩ :=
    (C6_flip_turn_involution F6).1 Api.wChar (by decide) (Or.inl rfl)
  have hbase : Api.flip_fen_turn F6 = Except.ok FJ6 := by decide
  rw [hbase] at h1
  injection h1 with h1
  rw [← h1] at h2
  exact ⟨hbase, h2⟩

/-
Lemmas about the batch move scorer.
-/

theorem pop_push (b : ProcessData.Board) (m : ProcessData.Move) :
    ProcessData.pop (ProcessData.push b m) = b := rfl

theorem processPly_record (eng : Option ProcessData.Engine) (we be : Int)
    (b : ProcessData.Board) (m : ProcessData.Move) (r : ProcessData.Record)
    (h : (ProcessData.processPly eng we be b m).1 = some r) :
    ∃ fb ce bs hs, r = ProcessData.mkRecord fb ce bs hs := by
  cases eng with
  | none => simp [ProcessData.processPly] at h
  | some e =>
      simp only [ProcessData.processPly] at h
      rcases hm : e.analyseMulti b with u | il
      · rw [hm] at h
        simp at h
      · rw [hm] at h
        cases il with
        | nil => simp at h
        | cons i0 rest =>
            dsimp only at h
            rcases hf : (i0 :: rest).find? (fun pv => pv.pvHead == m) with _ | pv
            · rw [hf] at h
              dsimp only at h
              rcases hs : e.analyseSingle (ProcessData.push b m) with u | so
              · rw [hs] at h
                simp at h
              · rw [hs] at h
                cases so with
                | none =>
                    dsimp only at h
                    exact ⟨_, _, _, _, (Option.some.inj h).symm⟩
                | some s =>
                    dsimp only at h
                    exact ⟨_, _, _, _, (Option.some.inj h).symm⟩
            · rw [hf] at h
              dsimp only at h
              exact ⟨_, _, _, _, (Option.some.inj h).symm⟩

theorem processMoves_mem (eng : Option ProcessData.Engine) (we be : Int) :
    ∀ (ms : List ProcessData.Move) (b : ProcessData.Board) (r : ProcessData.Record),
      r ∈ (ProcessData.processMoves eng we be ms b).1 →
      ∃ fb ce bs hs, r = ProcessData.mkRecord fb ce bs hs := by
  intro ms
  induction ms with
  | nil =>
      intro b r hr
      simp [ProcessData.processMoves] at hr
  | cons m ms ih =>
      intro b r hr
      simp only [ProcessData.processMoves] at hr
      rcases List.mem_append.mp hr with hl | hrh
      · have hsome : (ProcessData.processPly eng we be b m).1 = some r := by
          rcases ho : (ProcessData.processPly eng we be b m).1 with _ | x
          · rw [ho] at hl
            simp [Option.toList] at hl
          · rw [ho] at hl
            simp [Option.toList] at hl
            rw [hl]
        exact processPly_record eng we be b m r hsome
      · exact ih _ r hrh

theorem process_single_game_mem (pyInt : Str → Option Int)
    (eng : Option ProcessData.Engine) (g : ProcessData.Game)
    (r : ProcessData.Record)
    (hr : r ∈ ProcessData.process_single_game pyInt eng g) :
    ∃ fb ce bs hs, r = ProcessData.mkRecord fb ce bs hs := by
  simp only [ProcessData.process_single_game] at hr
  split at hr
  · simp at hr
  · split at hr
    · exact processMoves_mem eng _ _ g.moves (ProcessData.initialBoard g) r hr
    · simp at hr

/-- C2: every record process_single_game emits has score_diff equal to
best_score minus human_score, and is_blunder equal to one exactly when
score_diff exceeds 100. -/
theorem C2_score_diff_label (pyInt : Str → Option Int)
    (eng : Option ProcessData.Engine) (g : ProcessData.Game)
    (r : ProcessData.Record)
    (hr : r ∈ ProcessData.process_single_game pyInt eng g) :
    r.score_diff = r.best_score - r.human_score ∧
    r.is_blunder = (if 100 < r.score_diff then 1 else 0) := by
  obtain ⟨fb, ce, bs, hs, rfl⟩ := process_single_game_mem pyInt eng g r hr
  exact ⟨rfl, rfl⟩

/-- Witness for C2 at a concrete one-ply game. -/
theorem C2_score_diff_label_witness :
    R2.score_diff = R2.best_score - R2.human_score ∧
    R2.is_blunder = (if 100 < R2.score_diff then 1 else 0) :=
  C2_score_diff_label pyInt2 (some E2) G2 R2 (by decide)

/-- C1 (amended): when the played move is outside the analysed candidate
list, a successful fallback analyse yields the negated child score; a
fallback whose score extraction fails yields the sentinel -9999; but a
fallback whose analyse call itself raises emits no record at all (the ply
is skipped and the board is left doubly pushed). -/
theorem C1_fallback_negation_and_sentinel (e : ProcessData.Engine) (we be : Int)
    (b : ProcessData.Board) (m : ProcessData.Move)
    (i0 : ProcessData.InfoEntry) (rest : List ProcessData.InfoEntry)
    (hmulti : e.analyseMulti b = Except.ok (i0 :: rest))
    (hout : (i0 :: rest).find? (fun pv => pv.pvHead == m) = none) :
    (∀ s : Int, e.analyseSingle (ProcessData.push b m) = Except.ok (some s) →
      ProcessData.processPly (some e) we be b m =
        (some (ProcessData.mkRecord b (ProcessData.currentElo we be b) i0.score (-s)),
          ProcessData.push b m)) ∧
    (e.analyseSingle (ProcessData.push b m) = Except.ok none →
      ProcessData.processPly (some e) we be b m =
        (some (ProcessData.mkRecord b (ProcessData.currentElo we be b) i0.score (-9999)),
          ProcessData.push b m)) ∧
    (e.analyseSingle (ProcessData.push b m) = Except.error () →
      ProcessData.processPly (some e) we be b m =
        (none, ProcessData.push (ProcessData.push b m) m)) := by
  refine ⟨?_, ?_, ?_⟩
  · intro s hs
    simp only [ProcessData.processPly, hmulti, hout, hs, pop_push]
  · intro hs
    simp only [ProcessData.processPly, hmulti, hout, hs, pop_push]
  · intro hs
    simp only [ProcessData.processPly, hmulti, hout, hs, pop_push]

/-- Witness for C1 at a concrete engine whose fallback analyse succeeds
with score 42: the emitted played score is its negation. -/
theorem C1_fallback_negation_and_sentinel_witness :
    ProcessData.processPly (some E1w) 1500 1500 B1 5 =
      (some (ProcessData.mkRecord B1 (ProcessData.currentElo 1500 1500 B1) 30 (-42)),
        ProcessData.push B1 5) :=
  (C1_fallback_negation_and_sentinel E1w 1500 1500 B1 5 ⟨7, 30⟩ [] rfl rfl).1 42 rfl

/-- C1 counterexample: with engine E1c the played move 5 is outside the
candidate list and the fallback analyse call raises; the ply then emits no
record at all, so played_score is not set to the -9999 sentinel. -/
theorem C1_fallback_raise_counterexample :
    E1c.analyseMulti B1 = Except.ok [⟨7, 30⟩] ∧
    (ProcessData.InfoEntry.mk 7 30 :: []).find? (fun pv => pv.pvHead == 5) = none ∧
    E1c.analyseSingle (ProcessData.push B1 5) = Except.error () ∧
    (ProcessData.processPly (some E1c) 1500 1500 B1 5).1 = none :=
  ⟨rfl, rfl, rfl, rfl⟩

/-- C4: evaluating the loop body at the failing input - the played move
is outside the candidates and the fallback analyse raises - leaves the
board two pushes ahead instead of the single forward push of the walk, so
the position is not restored before the caller continues. -/
theorem C4_unbalanced_push_on_fallback_raise :
    (ProcessData.processPly (some E4) 1500 1400 B4 5).2 =
      ProcessData.push (ProcessData.push B4 5) 5 ∧
    (ProcessData.processPly (some E4) 1500 1400 B4 5).2 ≠ ProcessData.push B4 5 :=
  ⟨rfl, by decide⟩

theorem processMoves_engine_none (we be : Int) :
    ∀ (ms : List ProcessData.Move) (b : ProcessData.Board),
      (ProcessData.processMoves none we be ms b).1 = [] := by
  intro ms
  induction ms with
  | nil => intro b; rfl
  | cons m ms ih =>
      intro b
      simp [ProcessData.processMoves, ProcessData.processPly, ih]

/-- C7: a worker whose engine failed to start accepts every assigned game
and returns zero records, with no exception escaping. -/
theorem C7_dead_engine_zero_records (pyInt : Str → Option Int)
    (g : ProcessData.Game) :
    ProcessData.process_single_game pyInt none g = [] := by
  simp only [ProcessData.process_single_game]
  split
  · rfl
  · split
    · exact processMoves_engine_none _ _ _ _
    · rfl

/-- C10: a game whose white or black rating header is absent or not
accepted by the int conversion yields the empty record list, whatever the
engine (so no evaluator call can influence the result). -/
theorem C10_bad_rating_headers_empty (pyInt : Str → Option Int)
    (g : ProcessData.Game)
    (h : ProcessData.badHeader pyInt g.whiteEloStr ∨
      ProcessData.badHeader pyInt g.blackEloStr) :
    ∀ eng : Option ProcessData.Engine,
      ProcessData.process_single_game pyInt eng g = [] := by
  intro eng
  simp only [ProcessData.process_single_game]
  by_cases hq : g.whiteEloStr.getD ProcessData.qmark = ProcessData.qmark ∨
      g.blackEloStr.getD ProcessData.qmark = ProcessData.qmark
  · rw [if_pos hq]
  · rw [if_neg hq]
    push_neg at hq
    obtain ⟨hqw, hqb⟩ := hq
    rcases h with hw | hb
    · rcases hw with hnone | ⟨s, hsome, hparse⟩
      · exact absurd (by rw [hnone]; rfl) hqw
      · rw [hsome]
        simp only [Option.getD_some]
        rw [hparse]
    · rcases hb with hnone | ⟨s, hsome, hparse⟩
      · exact absurd (by rw [hnone]; rfl) hqb
      · rw [hsome]
        simp only [Option.getD_some]
        rw [hparse]
        cases hpw : pyInt (g.whiteEloStr.getD ProcessData.qmark) with
        | none => rfl
        | some w => rfl

/-- Witness for C10 at a game with an absent white rating header. -/
theorem C10_bad_rating_headers_empty_witness :
    ProcessData.process_single_game pyInt10 (some E10) G10 = [] :=
  C10_bad_rating_headers_empty pyInt10 G10 (Or.inl (Or.inl rfl)) (some E10)

/-
Lemmas about the online ranking endpoint.
-/

theorem mpop_mpush (b : Api.MBoard) (m : Api.MoveData) :
    Api.mpop (Api.mpush b m) = b := rfl

theorem rankLoop_spec (M : Api.Model) (elo : Int) (baseline : ℚ) :
    ∀ (ms : List Api.MoveData) (b : Api.MBoard),
      Api.rankLoop M elo baseline ms b =
        (ms.map (fun m =>
          { fromName := m.fromName
            toName := m.toName
            uciName := m.uciName
            sanName := m.sanName
            predictedFor := Api.oppMoveStr
            sideToMoveAfter := Api.colorName b.curTurn
            opponentErrorProbability := M m.childFen elo
            opponentErrorDelta := M m.childFen elo - baseline }), b) := by
  intro ms
  induction ms with
  | nil => intro b; rfl
  | cons m ms ih =>
      intro b
      simp only [Api.rankLoop, mpop_mpush, ih, List.map_cons]
      rfl

theorem predict_moves_ok (c : Api.Chess) (M : Api.Model) (fen : Str) (elo : Int)
    (p : Api.PosData) (hp : c.parse fen = some p) (hblank : Api.isBlank fen = false)
    (helo1 : 0 < elo) (helo2 : elo ≤ 3000) (hleg : p.legal ≠ [])
    (fl : Str) (hfl : Api.flip_fen_turn p.fenS = Except.ok fl) :
    Api.predict_moves c (some M) fen elo =
      Except.ok
        { fen := fen
          sideToMove := Api.colorName p.turnW
          predictedFor := Api.oppMoveStr
          elo := elo
          opponentBaselineProbability := M fl elo
          moves := p.legal.map (fun m =>
            { fromName := m.fromName
              toName := m.toName
              uciName := m.uciName
              sanName := m.sanName
              predictedFor := Api.oppMoveStr
              sideToMoveAfter := Api.colorName p.turnW
              opponentErrorProbability := M m.childFen elo
              opponentErrorDelta := M m.childFen elo - M fl elo }) } := by
  have he : ¬(elo ≤ 0 ∨ 3000 < elo) := by
    push_neg
    omega
  have hvr : Api.validate_request c (some M) fen elo = Except.ok p := by
    simp [Api.validate_request, Api.validate_fen, he, hblank, hp]
  simp only [Api.predict_moves, hvr]
  rw [if_neg hleg, hfl]
  dsimp only
  rw [rankLoop_spec]

theorem predict_moves_propagates (c : Api.Chess) (model : Option Api.Model)
    (fen : Str) (elo : Int) (e : Api.ApiError)
    (h : Api.validate_request c model fen elo = Except.error e) :
    Api.predict_moves c model fen elo = Except.error e := by
  simp only [Api.predict_moves, h]

theorem validate_request_error_cases (c : Api.Chess) (model : Option Api.Model)
    (fen : Str) (elo : Int)
    (h : model = none ∨ elo ≤ 0 ∨ 3000 < elo ∨ Api.isBlank fen = true ∨
      c.parse fen = none) :
    ∃ e, Api.validate_request c model fen elo = Except.error e := by
  cases model with
  | none => exact ⟨Api.ApiError.modelNotLoaded, rfl⟩
  | some M =>
      by_cases helo : elo ≤ 0 ∨ 3000 < elo
      · refine ⟨Api.ApiError.eloOutOfRange, ?_⟩
        simp [Api.validate_request, helo]
      · rcases h with hm | h1 | h2 | hb | hp
        · exact absurd hm (by simp)
        · exact absurd (Or.inl h1) helo
        · exact absurd (Or.inr h2) helo
        · refine ⟨Api.ApiError.fenRequired, ?_⟩
          simp [Api.validate_request, Api.validate_fen, helo, hb]
        · by_cases hb : Api.isBlank fen = true
          · refine ⟨Api.ApiError.fenRequired, ?_⟩
            simp [Api.validate_request, Api.validate_fen, helo, hb]
          · have hbf : Api.isBlank fen = false := by
              cases hx : Api.isBlank fen
              · rfl
              · exact absurd hx hb
            refine ⟨Api.ApiError.invalidFen, ?_⟩
            simp [Api.validate_request, Api.validate_fen, helo, hbf, hp]

theorem predict_moves_noLegal (c : Api.Chess) (M : Api.Model) (fen : Str)
    (elo : Int) (p : Api.PosData) (h1 : 0 < elo) (h2 : elo ≤ 3000)
    (hb : Api.isBlank fen = false) (hp : c.parse fen = some p)
    (hleg : p.legal = []) :
    Api.predict_moves c (some M) fen elo = Except.error Api.ApiError.noLegalMoves := by
  have he : ¬(elo ≤ 0 ∨ 3000 < elo) := by
    push_neg
    omega
  have hvr : Api.validate_request c (some M) fen elo = Except.ok p := by
    simp [Api.validate_request, Api.validate_fen, he, hb, hp]
  simp only [Api.predict_moves, hvr]
  rw [if_pos hleg]

/-- C9: every ranked entry of a successful response carries the side to
move of the original input position in side_to_move_after, because that
field is rendered from the board only after the move has been popped. -/
theorem C9_side_to_move_after_original (c : Api.Chess) (M : Api.Model)
    (fen : Str) (elo : Int) (p : Api.PosData)
    (hp : c.parse fen = some p) (hblank : Api.isBlank fen = false)
    (helo1 : 0 < elo) (helo2 : elo ≤ 3000) (hleg : p.legal ≠ [])
    (fl : Str) (hfl : Api.flip_fen_turn p.fenS = Except.ok fl)
    (resp : Api.MovesResponse)
    (hok : Api.predict_moves c (some M) fen elo = Except.ok resp) :
    resp.sideToMove = Api.colorName p.turnW ∧
    ∀ en ∈ resp.moves, en.sideToMoveAfter = Api.colorName p.turnW := by
  rw [predict_moves_ok c M fen elo p hp hblank helo1 helo2 hleg fl hfl] at hok
  injection hok with hok
  subst hok
  refine ⟨rfl, ?_⟩
  intro en hen
  simp only [List.mem_map] at hen
  obtain ⟨m, hm, rfl⟩ := hen
  rfl

/-- Witness for C9 at a one-legal-move position. -/
theorem C9_side_to_move_after_original_witness :
    R9.sideToMove = Api.colorName P9.turnW ∧
    EN9.sideToMoveAfter = Api.colorName P9.turnW := by
  have h := C9_side_to_move_after_original c9 M9 F9 1500 P9 (by decide) (by decide)
    (by decide) (by decide) (by decide) FL9 (by decide) R9 (by rfl)
  exact ⟨h.1, h.2 EN9 (List.mem_cons_self EN9 [])⟩

/-- C3 (amended): a successful response lists the moves in legal-move
enumeration order, each entry carrying the model's output for its child
position; the list is not re-sorted by evaluator output. -/
theorem C3_enumeration_order (c : Api.Chess) (M : Api.Model) (fen : Str)
    (elo : Int) (p : Api.PosData)
    (hp : c.parse fen = some p) (hblank : Api.isBlank fen = false)
    (helo1 : 0 < elo) (helo2 : elo ≤ 3000) (hleg : p.legal ≠ [])
    (fl : Str) (hfl : Api.flip_fen_turn p.fenS = Except.ok fl) :
    (Api.predict_moves c (some M) fen elo).map
        (fun resp => resp.moves.map
          (fun en => (en.uciName, en.opponentErrorProbability))) =
      Except.ok (p.legal.map (fun m => (m.uciName, M m.childFen elo))) := by
  rw [predict_moves_ok c M fen elo p hp hblank helo1 helo2 hleg fl hfl]
  simp only [Except.map, List.map_map]
  rfl

/-- Witness for C3 at the two-move position P3. -/
theorem C3_enumeration_order_witness :
    (Api.predict_moves c3 (some M3) F3 1500).map
        (fun resp => resp.moves.map
          (fun en => (en.uciName, en.opponentErrorProbability))) =
      Except.ok (P3.legal.map (fun m => (m.uciName, M3 m.childFen 1500))) :=
  C3_enumeration_order c3 M3 F3 1500 P3 (by decide) (by decide) (by decide)
    (by decide) (by decide) [ 'k', ' ', 'b' ] (by decide)

/-- C3 counterexample: with model M3 the two legal moves of P3 receive
the outputs 0 then 1, and the endpoint returns them in that enumeration
order, which is not descending in evaluator output. -/
theorem C3_not_sorted_counterexample :
    (Api.predict_moves c3 (some M3) F3 1500).map
        (fun resp => resp.moves.map (fun en => en.opponentErrorProbability)) =
      Except.ok [0, 1] ∧
    ¬ List.Pairwise (fun a b : ℚ => b ≤ a) [(0 : ℚ), 1] := by
  constructor
  · decide
  · intro hs
    have h1 := (List.pairwise_cons.mp hs).1 1 (by simp)
    norm_num at h1

/-- C5: with a well-formed chess oracle the endpoint fails exactly when
the model is missing, the Elo is out of range, the FEN is blank or
unparseable, or the position has no legal moves; a success always carries
a nonempty ranked list; and the zero-legal-moves case is the distinct
noLegalMoves error, never an empty success. -/
theorem C5_error_conditions (c : Api.Chess) (model : Option Api.Model)
    (fen : Str) (elo : Int) (hwf : Api.WellFormedChess c) :
    ((∃ e, Api.predict_moves c model fen elo = Except.error e) ↔
      (model = none ∨ elo ≤ 0 ∨ 3000 < elo ∨ Api.isBlank fen = true ∨
        c.parse fen = none ∨ ∃ p, c.parse fen = some p ∧ p.legal = [])) ∧
    (∀ resp, Api.predict_moves c model fen elo = Except.ok resp →
      resp.moves ≠ []) ∧
    (∀ M p, model = some M → 0 < elo → elo ≤ 3000 → Api.isBlank fen = false →
      c.parse fen = some p → p.legal = [] →
      Api.predict_moves c model fen elo =
        Except.error Api.ApiError.noLegalMoves) := by
  refine ⟨⟨?_, ?_⟩, ?_, ?_⟩
  · rintro ⟨e, he⟩
    by_cases hm : model = none
    · exact Or.inl hm
    · obtain ⟨M, rfl⟩ : ∃ M, model = some M := by
        cases model with
        | none => exact absurd rfl hm
        | some M => exact ⟨M, rfl⟩
      by_cases helo : elo ≤ 0 ∨ 3000 < elo
      · rcases helo with h1 | h2
        · exact Or.inr (Or.inl h1)
        · exact Or.inr (Or.inr (Or.inl h2))
      · obtain ⟨he1, he2⟩ := not_or.mp helo
        by_cases hb : Api.isBlank fen = true
        · exact Or.inr (Or.inr (Or.inr (Or.inl hb)))
        · have hbf : Api.isBlank fen = false := by
            cases hx : Api.isBlank fen
            · rfl
            · exact absurd hx hb
          rcases hparse : c.parse fen with _ | p
          · exact Or.inr (Or.inr (Or.inr (Or.inr (Or.inl rfl))))
          · by_cases hleg : p.legal = []
            · exact Or.inr (Or.inr (Or.inr (Or.inr (Or.inr ⟨p, rfl, hleg⟩))))
            · obtain ⟨fl, hfl⟩ := hwf fen p hparse
              have hok := predict_moves_ok c M fen elo p hparse hbf
                (by omega) (by omega) hleg fl hfl
              rw [hok] at he
              simp at he
  · intro h
    rcases h with hm | h1 | h2 | hb | hparse | ⟨p, hparse, hleg⟩
    · obtain ⟨e, he⟩ := validate_request_error_cases c model fen elo (Or.inl hm)
      exact ⟨e, predict_moves_propagates c model fen elo e he⟩
    · obtain ⟨e, he⟩ :=
        validate_request_error_cases c model fen elo (Or.inr (Or.inl h1))
      exact ⟨e, predict_moves_propagates c model fen elo e he⟩
    · obtain ⟨e, he⟩ :=
        validate_request_error_cases c model fen elo (Or.inr (Or.inr (Or.inl h2)))
      exact ⟨e, predict_moves_propagates c model fen elo e he⟩
    · obtain ⟨e, he⟩ :=
        validate_request_error_cases c model fen elo
          (Or.inr (Or.inr (Or.inr (Or.inl hb))))
      exact ⟨e, predict_moves_propagates c model fen elo e he⟩
    · obtain ⟨e, he⟩ :=
        validate_request_error_cases c model fen elo
          (Or.inr (Or.inr (Or.inr (Or.inr hparse))))
      exact ⟨e, predict_moves_propagates c model fen elo e he⟩
    · by_cases hm : model = none
      · obtain ⟨e, he⟩ := validate_request_error_cases c model fen elo (Or.inl hm)
        exact ⟨e, predict_moves_propagates c model fen elo e he⟩
      · obtain ⟨M, rfl⟩ : ∃ M, model = some M := by
          cases model with
          | none => exact absurd rfl hm
          | some M => exact ⟨M, rfl⟩
        by_cases helo : elo ≤ 0 ∨ 3000 < elo
        · obtain ⟨e, he⟩ := validate_request_error_cases c (some M) fen elo
            (by rcases helo with h1 | h2
                · exact Or.inr (Or.inl h1)
                · exact Or.inr (Or.inr (Or.inl h2)))
          exact ⟨e, predict_moves_propagates c (some M) fen elo e he⟩
        · obtain ⟨he1, he2⟩ := not_or.mp helo
          by_cases hb : Api.isBlank fen = true
          · obtain ⟨e, he⟩ := validate_request_error_cases c (some M) fen elo
              (Or.inr (Or.inr (Or.inr (Or.inl hb))))
            exact ⟨e, predict_moves_propagates c (some M) fen elo e he⟩
          · have hbf : Api.isBlank fen = false := by
              cases hx : Api.isBlank fen
              · rfl
              · exact absurd hx hb
            exact ⟨Api.ApiError.noLegalMoves,
              predict_moves_noLegal c M fen elo p (by omega) (by omega) hbf
                hparse hleg⟩
  · intro resp hok
    by_cases hm : model = none
    · obtain ⟨e, he⟩ := validate_request_error_cases c model fen elo (Or.inl hm)
      rw [predict_moves_propagates c model fen elo e he] at hok
      simp at hok
    · obtain ⟨M, rfl⟩ : ∃ M, model = some M := by
        cases model with
        | none => exact absurd rfl hm
        | some M => exact ⟨M, rfl⟩
      by_cases helo : elo ≤ 0 ∨ 3000 < elo
      · obtain ⟨e, he⟩ := validate_request_error_cases c (some M) fen elo
          (by rcases helo with h1 | h2
              · exact Or.inr (Or.inl h1)
              · exact Or.inr (Or.inr (Or.inl h2)))
        rw [predict_moves_propagates c (some M) fen elo e he] at hok
        simp at hok
      · obtain ⟨he1, he2⟩ := not_or.mp helo
        by_cases hb : Api.isBlank fen = true
        · obtain ⟨e, he⟩ := validate_request_error_cases c (some M) fen elo
            (Or.inr (Or.inr (Or.inr (Or.inl hb))))
          rw [predict_moves_propagates c (some M) fen elo e he] at hok
          simp at hok
        · have hbf : Api.isBlank fen = false := by
            cases hx : Api.isBlank fen
            · rfl
            · exact absurd hx hb
          rcases hparse : c.parse fen with _ | p
          · obtain ⟨e, he⟩ := validate_request_error_cases c (some M) fen elo
              (Or.inr (Or.inr (Or.inr (Or.inr hparse))))
            rw [predict_moves_propagates c (some M) fen elo e he] at hok
            simp at hok
          · by_cases hleg : p.legal = []
            · rw [predict_moves_noLegal c M fen elo p (by omega) (by omega) hbf
                hparse hleg] at hok
              simp at hok
            · obtain ⟨fl, hfl⟩ := hwf fen p hparse
              rw [predict_moves_ok c M fen elo p hparse hbf (by omega) (by omega)
                hleg fl hfl] at hok
              injection hok with hok
              subst hok
              simp only [ne_eq, List.map_eq_nil_iff]
              exact hleg
  · intro M p hm h1 h2 hbf hparse hleg
    subst hm
    exact predict_moves_noLegal c M fen elo p h1 h2 hbf hparse hleg

/-- Witness for C5 at a stalemated position: the request fails with the
distinct no-legal-moves error. -/
theorem C5_error_conditions_witness :
    Api.predict_moves c5 (some M5) F5 1500 =
      Except.error Api.ApiError.noLegalMoves := by
  have hwf : Api.WellFormedChess c5 := by
    intro s p h
    simp only [c5] at h
    by_cases hs : s = F5
    · rw [if_pos hs] at h
      injection h with h
      subst h
      exact ⟨_, rfl⟩
    · rw [if_neg hs] at h
      exact absurd h (by simp)
  exact (C5_error_conditions c5 (some M5) F5 1500 hwf).2.2 M5 P5 rfl (by decide)
    (by decide) (by decide) (by decide) (by decide)

/-
Lemmas about the board encoders.
-/

theorem squareAt_rank_file (sq : Fin 64) :
    squareAt (squareRank sq) (squareFile sq) = sq := by
  rcases sq with ⟨v, hv⟩
  apply Fin.ext
  simp only [squareAt, squareRank, squareFile]
  omega

theorem rank_squareAt (r f : Fin 8) : squareRank (squareAt r f) = r := by
  rcases r with ⟨rv, hr⟩
  rcases f with ⟨fv, hf⟩
  apply Fin.ext
  simp only [squareAt, squareRank, squareFile]
  omega

theorem file_squareAt (r f : Fin 8) : squareFile (squareAt r f) = f := by
  rcases r with ⟨rv, hr⟩
  rcases f with ⟨fv, hf⟩
  apply Fin.ext
  simp only [squareAt, squareRank, squareFile]
  omega

theorem foldl_fillStep (pm : Fin 64 → Option Piece) (r f : Fin 8) (l : Fin 12) :
    ∀ (L : List (Fin 64)) (t : Tensor),
      (L.foldl (fillStep pm) t) r f l =
        if squareAt r f ∈ L ∧ cellHot pm (squareAt r f) l = true then 1
        else t r f l := by
  intro L
  induction L with
  | nil =>
      intro t
      simp
  | cons sq L ih =>
      intro t
      rw [List.foldl_cons, ih]
      by_cases hmem : squareAt r f ∈ L ∧ cellHot pm (squareAt r f) l = true
      · rw [if_pos hmem, if_pos ⟨List.mem_cons_of_mem sq hmem.1, hmem.2⟩]
      · rw [if_neg hmem]
        rcases hpm : pm sq with _ | p
        · have hfs : fillStep pm t sq = t := by
            simp [fillStep, hpm]
          rw [hfs]
          by_cases hcond : squareAt r f ∈ sq :: L ∧ cellHot pm (squareAt r f) l = true
          · exfalso
            rcases hcond with ⟨hin, hhot⟩
            rcases List.mem_cons.mp hin with heq | hin2
            · rw [heq] at hhot
              simp [cellHot, hpm] at hhot
            · exact hmem ⟨hin2, hhot⟩
          · rw [if_neg hcond]
        · have hfs : fillStep pm t sq =
              setCell t (squareRank sq) (squareFile sq) (layerOf p) 1 := by
            simp [fillStep, hpm]
          rw [hfs]
          simp only [setCell]
          by_cases hhit : r = squareRank sq ∧ f = squareFile sq ∧ l = layerOf p
          · rw [if_pos hhit]
            obtain ⟨h1, h2, h3⟩ := hhit
            have hsq : squareAt r f = sq := by
              rw [h1, h2]
              exact squareAt_rank_file sq
            have hhot : cellHot pm (squareAt r f) l = true := by
              rw [hsq]
              simp [cellHot, hpm, h3]
            rw [if_pos ⟨by rw [hsq]; exact List.mem_cons_self sq L, hhot⟩]
          · rw [if_neg hhit]
            by_cases hcond : squareAt r f ∈ sq :: L ∧ cellHot pm (squareAt r f) l = true
            · exfalso
              rcases hcond with ⟨hin, hhot⟩
              rcases List.mem_cons.mp hin with heq | hin2
              · have hr : squareRank sq = r := by
                  rw [← heq]
                  exact rank_squareAt r f
                have hf2 : squareFile sq = f := by
                  rw [← heq]
                  exact file_squareAt r f
                rw [heq] at hhot
                simp only [cellHot, hpm, beq_iff_eq] at hhot
                exact hhit ⟨hr.symm, hf2.symm, hhot.symm⟩
              · exact hmem ⟨hin2, hhot⟩
            · rw [if_neg hcond]

theorem fen_to_tensor_char (pm : Fin 64 → Option Piece) (r f : Fin 8) (l : Fin 12) :
    TrainModel.fen_to_tensor pm r f l =
      if cellHot pm (squareAt r f) l = true then 1 else 0 := by
  unfold TrainModel.fen_to_tensor
  rw [foldl_fillStep pm r f l (List.finRange 64) zeroTensor]
  have hmem : squareAt r f ∈ List.finRange 64 := List.mem_finRange _
  by_cases hhot : cellHot pm (squareAt r f) l = true
  · rw [if_pos ⟨hmem, hhot⟩, if_pos hhot]
  · rw [if_neg (fun hc => hhot hc.2), if_neg hhot]
    rfl

/-- C8: the training-side and serving-side board encoders are the same
function, and each cell of the produced tensor is one exactly when the
piece map places a piece of the matching plane on that rank and file; the
plane of a piece is its piece-type index, shifted by six for black. -/
theorem C8_board_encoding_agreement (pm : Fin 64 → Option Piece)
    (r f : Fin 8) (l : Fin 12) :
    TrainModel.fen_to_tensor pm = Api.fen_to_tensor pm ∧
    TrainModel.fen_to_tensor pm r f l =
      (match pm (squareAt r f) with
       | some p => if layerOf p = l then (1 : ℚ) else 0
       | none => 0) ∧
    ∀ p : Piece,
      (layerOf p).val = pieceLayerBase p.ptype + (if p.colorW then 0 else 6) := by
  refine ⟨rfl, ?_, fun p => rfl⟩
  rw [fen_to_tensor_char]
  rcases hpm : pm (squareAt r f) with _ | p
  · simp [cellHot, hpm]
  · simp [cellHot, hpm, beq_iff_eq]
